import Mathlib

/-!
Verification of the weighted-mean neighbor aggregator
(`GraphConvWithEdgeWeight` and `u_mul_e_udf` from
`src/2-dgl101/4_message_passing.ipynb`).

Feature vectors are modelled exactly over the rationals (the spec's data
model speaks of real-valued vectors and exact arithmetic means).  The DGL
primitives that the notebook calls (`fn.u_mul_e`, `fn.mean`, `update_all`,
`local_scope`) are not part of this repository's sources, so they are
modelled from the spec's description of their contracts; each such
definition carries a `Modelled from the spec:` doc comment.
-/

/-- A feature vector: a fixed-length list of rationals. -/
abbrev Vec := List ℚ

/-- A directed graph in DGL style: nodes are the identifiers
`0, …, numNodes-1`, edges an enumerable list of ordered pairs
(source, destination). -/
structure Graph where
  numNodes : ℕ
  edges : List (ℕ × ℕ)
deriving DecidableEq, Repr

/-- The list of node identifiers of a graph. -/
def Graph.nodes (g : Graph) : List ℕ := List.range g.numNodes

/-- Elementwise scaling of a vector by a scalar. -/
def scaleVec (c : ℚ) (v : Vec) : Vec := v.map (fun x => c * x)

/-- Elementwise sum of two vectors (of the same length). -/
def addVec (v w : Vec) : Vec := List.zipWith (· + ·) v w

/-- The zero vector of width `F`. -/
def zeroVec (F : ℕ) : Vec := List.replicate F 0

/-- Sum of a list of vectors, all of width `F`. -/
def sumVecs (F : ℕ) (l : List Vec) : Vec := l.foldr addVec (zeroVec F)

/-- Component access used throughout: entry `i` of a vector, `0` out of
range. -/
def vget (v : Vec) (i : ℕ) : ℚ := v.getD i 0

/-- Modelled from the spec: the built-in message function
`fn.u_mul_e('h', 'w', 'm')` of the external framework (not under `src/`):
for an edge it emits the source node's feature scaled elementwise by the
edge's scalar weight. -/
def u_mul_e (src_h : Vec) (w : ℚ) : Vec := scaleVec w src_h

/-- The user-defined message function of the source
(`u_mul_e_udf(edges) = {'m' : edges.src['h'] * edges.data['w']}`),
as a pure per-edge function: source feature times edge weight,
elementwise. -/
def u_mul_e_udf (src_h : Vec) (w : ℚ) : Vec := src_h.map (fun x => x * w)

/-- Modelled from the spec: the built-in reduction `fn.mean('m', 'h_neigh')`
of the external framework (not under `src/`): the arithmetic mean of the
incoming messages; a node with no incoming message gets the zero vector of
width `F` (the framework's documented fallback). -/
def meanReduce (F : ℕ) (msgs : List Vec) : Vec :=
  if msgs.length = 0 then zeroVec F
  else scaleVec (1 / (msgs.length : ℚ)) (sumVecs F msgs)

/-- The weighted edges incoming at destination node `v`. -/
def inEdges (ew : List ((ℕ × ℕ) × ℚ)) (v : ℕ) : List ((ℕ × ℕ) × ℚ) :=
  ew.filter (fun p => p.1.2 = v)

/-- The messages arriving at destination node `v`: one per incoming edge,
produced by the built-in message function. -/
def msgsAt (hf : ℕ → Vec) (ew : List ((ℕ × ℕ) × ℚ)) (v : ℕ) : List Vec :=
  (inEdges ew v).map (fun p => u_mul_e (hf p.1.1) p.2)

/-- The aggregated neighbor representation `h_neigh[v]` computed by
`g.update_all(fn.u_mul_e('h','w','m'), fn.mean('m','h_neigh'))`. -/
def neighborRepr (F : ℕ) (hf : ℕ → Vec) (ew : List ((ℕ × ℕ) × ℚ)) (v : ℕ) : Vec :=
  meanReduce F (msgsAt hf ew v)

/-- As `neighborRepr`, but with the user-defined message function
`u_mul_e_udf` substituted for the built-in `fn.u_mul_e`. -/
def neighborReprUDF (F : ℕ) (hf : ℕ → Vec) (ew : List ((ℕ × ℕ) × ℚ)) (v : ℕ) : Vec :=
  meanReduce F ((inEdges ew v).map (fun p => u_mul_e_udf (hf p.1.1) p.2))

/-- Dot product of two vectors. -/
def dotProd (xs ys : Vec) : ℚ := (List.zipWith (· * ·) xs ys).sum

/-- The learned linear submodule `nn.Linear(in_feat * 2, out_feat)`:
rows of the weight matrix paired with the bias entries. -/
structure Linear where
  weight : List Vec
  bias : Vec
deriving Repr

/-- Application of the linear map: one dot product plus bias per output
row. -/
def Linear.apply (l : Linear) (x : Vec) : Vec :=
  List.zipWith (fun row b => dotProd row x + b) l.weight l.bias

/-- The elementwise rectifier `F.relu`. -/
def relu (v : Vec) : Vec := v.map (fun x => max x 0)

/-!
## The stateful forward computation

The notebook's `forward` works on a shared graph object whose `ndata` /
`edata` dictionaries it decorates inside `g.local_scope()`.  `GraphState`
records the graph together with the four fields this program ever touches
(`ndata['h']`, `ndata['h_neigh']`, `edata['w']`, and the transient message
field `'m'`, which `update_all` consumes without storing).
-/

/-- The shared graph object: the structural graph plus its named node/edge
data fields.  `ndata` fields are node-indexed lists of vectors, the
`edata['w']` field an edge-indexed list of scalars. -/
structure GraphState where
  graph : Graph
  ndata_h : Option (List Vec)
  ndata_h_neigh : Option (List Vec)
  edata_w : Option (List ℚ)
deriving Repr

/-- Modelled from the spec: `g.local_scope()` of the external framework
(not under `src/`) — a scoped mechanism to attach transient per-node and
per-edge data; all data changes made inside the scope are discarded when
it exits, so the caller's graph object is handed back unchanged. -/
def localScope {α : Type} (gs : GraphState) (f : GraphState → α × GraphState) :
    α × GraphState :=
  ((f gs).1, gs)

/-- `g.ndata['h'] = h`. -/
def setNDataH (gs : GraphState) (h : List Vec) : GraphState :=
  { gs with ndata_h := some h }

/-- `g.edata['w'] = w`. -/
def setEDataW (gs : GraphState) (w : List ℚ) : GraphState :=
  { gs with edata_w := some w }

/-- Modelled from the spec: `g.update_all(fn.u_mul_e('h','w','m'),
fn.mean('m','h_neigh'))` of the external framework (not under `src/`):
broadcast the per-edge message `h[src] * w[edge]` and reduce the messages
per destination node by the mean, storing the result in
`ndata['h_neigh']`; the message field `'m'` is transient and never stored
on the graph. -/
def updateAllMean (F : ℕ) (gs : GraphState) : GraphState :=
  let h := gs.ndata_h.getD []
  let w := gs.edata_w.getD []
  let ew := gs.graph.edges.zip w
  let reduced := gs.graph.nodes.map (fun v =>
    neighborRepr F (fun u => h.getD u []) ew v)
  { gs with ndata_h_neigh := some reduced }

/-- The body of `GraphConvWithEdgeWeight.forward`, embedded statement by
statement from the source: enter a local scope, attach `h` and `w`,
run `update_all`, read back `h_neigh`, concatenate with `h` per node and
apply the linear projection and the rectifier.  The result pairs the
returned tensor with the graph state the caller observes after the call. -/
def forwardCall (F : ℕ) (lin : Linear) (gs : GraphState) (h : List Vec)
    (w : List ℚ) : List Vec × GraphState :=
  localScope gs (fun s0 =>
    let s1 := setNDataH s0 h
    let s2 := setEDataW s1 w
    let s3 := updateAllMean F s2
    let h_neigh := s3.ndata_h_neigh.getD []
    let h_total := List.zipWith (fun hv hn => hv ++ hn) h h_neigh
    (h_total.map (fun x => relu (lin.apply x)), s3))

/-- The value returned by `GraphConvWithEdgeWeight.forward`. -/
def forward (F : ℕ) (lin : Linear) (gs : GraphState) (h : List Vec)
    (w : List ℚ) : List Vec :=
  (forwardCall F lin gs h w).1

/-!
## The error-reporting aggregate contract

The spec's §4.1 contract `aggregate(graph, node_features, edge_weights)`
with its failure taxonomy.  The dimension and weight-presence checks live
in the external framework, not under `src/`, so they are modelled from the
spec.
-/

/-- The spec's error taxonomy for one aggregator invocation. -/
inductive AggError where
  | DimensionMismatch : AggError
  | UndefinedWeight : AggError
deriving DecidableEq, Repr

/-- Look up the scalar weight of an edge in the `edge_weights` mapping
(an association list edge → scalar). -/
def lookupWeight (ws : List ((ℕ × ℕ) × ℚ)) (e : ℕ × ℕ) : Option ℚ :=
  (ws.find? (fun p => p.1 = e)).map (fun p => p.2)

/-- Modelled from the spec: the §4.1 contract
`aggregate(graph, node_features, edge_weights) -> node_representations`.
It fails with `DimensionMismatch` when the width of `node_features` does
not match the configured input width `F`, fails with `UndefinedWeight`
when some edge lacks an entry in `edge_weights`, and otherwise returns,
for every node `v` of the graph,
`relu(W · concat(node_features[v], neighbor_repr[v]))`. -/
def aggregate (F : ℕ) (lin : Linear) (g : Graph) (hf : ℕ → Vec)
    (ws : List ((ℕ × ℕ) × ℚ)) : Except AggError (List Vec) :=
  if ¬ g.nodes.all (fun v => (hf v).length = F) then
    .error .DimensionMismatch
  else if ¬ g.edges.all (fun e => (lookupWeight ws e).isSome) then
    .error .UndefinedWeight
  else
    let ew := g.edges.map (fun e => (e, (lookupWeight ws e).getD 0))
    .ok (g.nodes.map (fun v =>
      relu (lin.apply (hf v ++ neighborRepr F hf ew v))))

/-- In-degree of node `v`: the number of edges directed into `v`. -/
def inDegree (g : Graph) (v : ℕ) : ℕ :=
  (g.edges.filter (fun e => e.2 = v)).length

/-- The weighted edge list that `aggregate` derives from the graph and the
`edge_weights` mapping. -/
def weightedEdges (g : Graph) (ws : List ((ℕ × ℕ) × ℚ)) : List ((ℕ × ℕ) × ℚ) :=
  g.edges.map (fun e => (e, (lookupWeight ws e).getD 0))

/-- The weighted edge list with the weight of every incoming edge of `v`
replaced by `c` times that weight (all other edges untouched). -/
def scaleWeightsAt (c : ℚ) (v : ℕ) (ew : List ((ℕ × ℕ) × ℚ)) :
    List ((ℕ × ℕ) × ℚ) :=
  ew.map (fun p => if p.1.2 = v then (p.1, c * p.2) else p)

/-!
## The end-to-end example of the spec (§8)

Graph with 3 nodes, edges 0→2 and 1→2 each of weight 1/2, node features
`[[1,0],[0,1],[0,0]]`.
-/

/-- The example graph of spec §8. -/
def exGraph : Graph := ⟨3, [(0, 2), (1, 2)]⟩

/-- The example node features of spec §8 as a tensor. -/
def exFeat : List Vec := [[1, 0], [0, 1], [0, 0]]

/-- The example node features as a node → vector mapping. -/
def exHf : ℕ → Vec := fun u => exFeat.getD u []

/-- The example edge-weight mapping of spec §8. -/
def exWs : List ((ℕ × ℕ) × ℚ) := [((0, 2), 1/2), ((1, 2), 1/2)]

/-- Node features of width 3 (for the dimension-mismatch scenario of spec
§8). -/
def exFeat3 : List Vec := [[1, 0, 0], [0, 1, 0], [0, 0, 1]]

/-- The width-3 features as a node → vector mapping. -/
def exHf3 : ℕ → Vec := fun u => exFeat3.getD u []

/-- An edge-weight mapping missing the entry for edge (1,2). -/
def exWsMissing : List ((ℕ × ℕ) × ℚ) := [((0, 2), 1/2)]

/-- A concrete 2×4 linear layer (identity on the first two inputs, zero
bias) used to exercise the combination step. -/
def exLin : Linear := ⟨[[1, 0, 0, 0], [0, 1, 0, 0]], [0, 0]⟩

/-- A graph state holding the example graph and no data fields. -/
def exState : GraphState := ⟨exGraph, none, none, none⟩

/-- A graph state holding the example graph and stale pre-existing data
fields. -/
def exStateDirty : GraphState :=
  ⟨exGraph, some [[7, 7], [7, 7], [7, 7]], some [[9], [9], [9]], some [3, 4]⟩

/-!
## Pointwise toolbox
-/

theorem scaleVec_length (c : ℚ) (v : Vec) : (scaleVec c v).length = v.length := by
  simp [scaleVec]

theorem zeroVec_length (F : ℕ) : (zeroVec F).length = F := by
  simp [zeroVec]

theorem vget_zeroVec (F i : ℕ) : vget (zeroVec F) i = 0 := by
  unfold vget zeroVec
  rcases Nat.lt_or_ge i F with hi | hi
  · rw [List.getD_eq_getElem _ _ (by simpa using hi)]
    simp
  · exact List.getD_eq_default _ _ (by simpa using hi)

theorem vget_scaleVec (c : ℚ) (v : Vec) (i : ℕ) :
    vget (scaleVec c v) i = c * vget v i := by
  unfold vget scaleVec
  rcases Nat.lt_or_ge i v.length with hi | hi
  · rw [List.getD_eq_getElem _ _ (by simpa using hi),
      List.getD_eq_getElem _ _ hi, List.getElem_map]
  · rw [List.getD_eq_default _ _ (by simpa using hi),
      List.getD_eq_default _ _ hi, mul_zero]

theorem addVec_length {a b : Vec} (h : a.length = b.length) :
    (addVec a b).length = a.length := by
  simp [addVec, h]

theorem vget_addVec {a b : Vec} (h : a.length = b.length) (i : ℕ) :
    vget (addVec a b) i = vget a i + vget b i := by
  unfold vget addVec
  rcases Nat.lt_or_ge i a.length with hi | hi
  · rw [List.getD_eq_getElem _ _ (by simp only [List.length_zipWith] ; omega),
      List.getD_eq_getElem _ _ hi, List.getD_eq_getElem _ _ (h ▸ hi),
      List.getElem_zipWith]
  · rw [List.getD_eq_default _ _ (by simp only [List.length_zipWith] ; omega),
      List.getD_eq_default _ _ hi, List.getD_eq_default _ _ (h ▸ hi), add_zero]

theorem sumVecs_length {F : ℕ} {l : List Vec} (h : ∀ v ∈ l, v.length = F) :
    (sumVecs F l).length = F := by
  induction l with
  | nil => simp [sumVecs, zeroVec]
  | cons x xs ih =>
    have hx : x.length = F := h x (List.mem_cons_self x xs)
    have hxs : (sumVecs F xs).length = F :=
      ih (fun v hv => h v (List.mem_cons_of_mem x hv))
    show (addVec x (sumVecs F xs)).length = F
    rw [addVec_length (by rw [hx, hxs]), hx]

theorem vget_sumVecs {F : ℕ} {l : List Vec} (h : ∀ v ∈ l, v.length = F) (i : ℕ) :
    vget (sumVecs F l) i = (l.map (fun v => vget v i)).sum := by
  induction l with
  | nil => simp [sumVecs, vget_zeroVec]
  | cons x xs ih =>
    have hx : x.length = F := h x (List.mem_cons_self x xs)
    have hxs : ∀ v ∈ xs, v.length = F := fun v hv => h v (List.mem_cons_of_mem x hv)
    show vget (addVec x (sumVecs F xs)) i = _
    rw [vget_addVec (by rw [hx, sumVecs_length hxs]), ih hxs]
    simp

theorem meanReduce_length {F : ℕ} {l : List Vec} (h : ∀ v ∈ l, v.length = F) :
    (meanReduce F l).length = F := by
  unfold meanReduce
  split
  · exact zeroVec_length F
  · rw [scaleVec_length, sumVecs_length h]

theorem vget_meanReduce {F : ℕ} {l : List Vec} (h : ∀ v ∈ l, v.length = F)
    (hne : l.length ≠ 0) (i : ℕ) :
    vget (meanReduce F l) i = (l.map (fun v => vget v i)).sum / (l.length : ℚ) := by
  unfold meanReduce
  rw [if_neg hne, vget_scaleVec, vget_sumVecs h]
  rw [one_div, inv_mul_eq_div]

/-- Two vectors with equal length and equal entries everywhere are equal. -/
theorem vecExt {a b : Vec} (hl : a.length = b.length)
    (h : ∀ i, vget a i = vget b i) : a = b := by
  refine List.ext_getElem hl (fun n h₁ h₂ => ?_)
  have := h n
  rwa [vget, vget, List.getD_eq_getElem _ _ h₁, List.getD_eq_getElem _ _ h₂] at this

/-!
## Structure of the incoming-message lists
-/

theorem inEdges_weightedEdges (g : Graph) (ws : List ((ℕ × ℕ) × ℚ)) (v : ℕ) :
    inEdges (weightedEdges g ws) v
      = (g.edges.filter (fun e => e.2 = v)).map
          (fun e => (e, (lookupWeight ws e).getD 0)) := by
  unfold inEdges weightedEdges
  rw [List.filter_map]
  congr 1

theorem msgsAt_weightedEdges (g : Graph) (ws : List ((ℕ × ℕ) × ℚ))
    (hf : ℕ → Vec) (v : ℕ) :
    msgsAt hf (weightedEdges g ws) v
      = (g.edges.filter (fun e => e.2 = v)).map
          (fun e => scaleVec ((lookupWeight ws e).getD 0) (hf e.1)) := by
  unfold msgsAt
  rw [inEdges_weightedEdges, List.map_map]
  rfl

theorem msgsAt_length_weightedEdges (g : Graph) (ws : List ((ℕ × ℕ) × ℚ))
    (hf : ℕ → Vec) (v : ℕ) :
    (msgsAt hf (weightedEdges g ws) v).length = inDegree g v := by
  rw [msgsAt_weightedEdges, List.length_map, inDegree]

theorem msgsAt_widths {F : ℕ} {hf : ℕ → Vec} {ew : List ((ℕ × ℕ) × ℚ)} {v : ℕ}
    (h : ∀ p ∈ ew, (hf p.1.1).length = F) :
    ∀ m ∈ msgsAt hf ew v, m.length = F := by
  intro m hm
  obtain ⟨p, hp, rfl⟩ := List.mem_map.1 hm
  rw [u_mul_e, scaleVec_length]
  exact h p (List.mem_of_mem_filter hp)

theorem scaleVec_scaleVec (c w : ℚ) (v : Vec) :
    scaleVec (c * w) v = scaleVec c (scaleVec w v) := by
  simp [scaleVec, List.map_map, Function.comp_def, mul_assoc]

theorem scaleVec_zeroVec (c : ℚ) (F : ℕ) : scaleVec c (zeroVec F) = zeroVec F := by
  simp [scaleVec, zeroVec]

theorem inEdges_scaleWeightsAt (c : ℚ) (v : ℕ) (ew : List ((ℕ × ℕ) × ℚ)) :
    inEdges (scaleWeightsAt c v ew) v
      = (inEdges ew v).map (fun p => (p.1, c * p.2)) := by
  unfold inEdges scaleWeightsAt
  rw [List.filter_map]
  rw [show ((fun p : (ℕ × ℕ) × ℚ => decide (p.1.2 = v)) ∘
        (fun p : (ℕ × ℕ) × ℚ => if p.1.2 = v then (p.1, c * p.2) else p))
      = (fun p : (ℕ × ℕ) × ℚ => decide (p.1.2 = v)) from
    funext (fun p => by by_cases hp : p.1.2 = v <;> simp [Function.comp, hp])]
  refine List.map_congr_left (fun p hp => ?_)
  have hpv : p.1.2 = v := by simpa using List.of_mem_filter hp
  simp [hpv]

theorem msgsAt_scaleWeightsAt (c : ℚ) (v : ℕ) (hf : ℕ → Vec)
    (ew : List ((ℕ × ℕ) × ℚ)) :
    msgsAt hf (scaleWeightsAt c v ew) v = (msgsAt hf ew v).map (scaleVec c) := by
  unfold msgsAt
  rw [inEdges_scaleWeightsAt, List.map_map, List.map_map]
  refine List.map_congr_left (fun p _ => ?_)
  show u_mul_e (hf p.1.1) (c * p.2) = scaleVec c (u_mul_e (hf p.1.1) p.2)
  rw [u_mul_e, u_mul_e, scaleVec_scaleVec]

/-!
## The claims
-/

/-- **C1.** For every graph, node-feature mapping and edge-weight mapping
satisfying the preconditions (edge endpoints exist, every edge has a
weight), and every destination node `v` with in-degree `k ≥ 1`, the
aggregator's intermediate `neighbor_repr[v]` is the elementwise arithmetic
mean of exactly `k` messages, one per incoming edge, the message of edge
`(u,v)` being `node_features[u]` scaled elementwise by
`edge_weights[(u,v)]`. -/
theorem neighborRepr_is_mean_of_messages
    (g : Graph) (hf : ℕ → Vec) (ws : List ((ℕ × ℕ) × ℚ)) (F v k : ℕ)
    (hend : ∀ e ∈ g.edges, e.1 < g.numNodes ∧ e.2 < g.numNodes)
    (hw : ∀ e ∈ g.edges, (lookupWeight ws e).isSome = true)
    (hwidth : ∀ e ∈ g.edges, (hf e.1).length = F)
    (hk : k = inDegree g v) (hk1 : 1 ≤ k) :
    (msgsAt hf (weightedEdges g ws) v).length = k ∧
    msgsAt hf (weightedEdges g ws) v
      = (g.edges.filter (fun e => e.2 = v)).map
          (fun e => scaleVec ((lookupWeight ws e).getD 0) (hf e.1)) ∧
    ∀ i : ℕ, vget (neighborRepr F hf (weightedEdges g ws) v) i
      = ((msgsAt hf (weightedEdges g ws) v).map (fun m => vget m i)).sum
          / (k : ℚ) := by
  have hlen := msgsAt_length_weightedEdges g ws hf v
  have hwidths : ∀ p ∈ weightedEdges g ws, (hf p.1.1).length = F := by
    intro p hp
    obtain ⟨e, he, rfl⟩ := List.mem_map.1 hp
    exact hwidth e he
  refine ⟨by rw [hk] ; exact hlen, msgsAt_weightedEdges g ws hf v, fun i => ?_⟩
  rw [neighborRepr,
    vget_meanReduce (msgsAt_widths hwidths) (by rw [hlen, ← hk] ; omega) i,
    hlen, ← hk]

/-- Witness for C1: the end-to-end example of spec §8 — node 2 of the
example graph has in-degree 2 and its `neighbor_repr` is the mean of the
two scaled source vectors. -/
theorem neighborRepr_is_mean_of_messages_witness :
    (∀ e ∈ exGraph.edges, e.1 < exGraph.numNodes ∧ e.2 < exGraph.numNodes) ∧
    (∀ e ∈ exGraph.edges, (lookupWeight exWs e).isSome = true) ∧
    (∀ e ∈ exGraph.edges, (exHf e.1).length = 2) ∧
    2 = inDegree exGraph 2 ∧
    ((msgsAt exHf (weightedEdges exGraph exWs) 2).length = 2 ∧
     msgsAt exHf (weightedEdges exGraph exWs) 2
       = (exGraph.edges.filter (fun e => e.2 = 2)).map
           (fun e => scaleVec ((lookupWeight exWs e).getD 0) (exHf e.1)) ∧
     ∀ i : ℕ, vget (neighborRepr 2 exHf (weightedEdges exGraph exWs) 2) i
       = ((msgsAt exHf (weightedEdges exGraph exWs) 2).map
           (fun m => vget m i)).sum / (2 : ℚ)) :=
  ⟨by decide, by decide, by decide, by decide,
    neighborRepr_is_mean_of_messages exGraph exHf exWs 2 2 2
      (by decide) (by decide) (by decide) (by decide) (by decide)⟩

/-- **C6.** A node `v` with in-degree 0 deterministically receives the
documented fallback: `neighbor_repr[v]` is the zero vector of width `F`,
and the computation does not fail. -/
theorem neighborRepr_zero_indegree
    (g : Graph) (hf : ℕ → Vec) (ws : List ((ℕ × ℕ) × ℚ)) (F v : ℕ)
    (h0 : inDegree g v = 0) :
    neighborRepr F hf (weightedEdges g ws) v = zeroVec F := by
  have hz : (msgsAt hf (weightedEdges g ws) v).length = 0 := by
    rw [msgsAt_length_weightedEdges, h0]
  rw [neighborRepr, meanReduce, if_pos hz]

/-- Witness for C6: node 0 of the example graph has in-degree 0 and its
`neighbor_repr` is the zero vector `[0, 0]`. -/
theorem neighborRepr_zero_indegree_witness :
    inDegree exGraph 0 = 0 ∧
    neighborRepr 2 exHf (weightedEdges exGraph exWs) 0 = zeroVec 2 :=
  ⟨by decide, neighborRepr_zero_indegree exGraph exHf exWs 2 0 (by decide)⟩

/-- **C7.** For a node `v` of in-degree `k ≥ 1`, `neighbor_repr[v]` is
invariant under every permutation of the enumeration order of the edges:
aggregating the same multiset of weighted edges in any order yields the
same result. -/
theorem neighborRepr_perm_invariant
    (F v : ℕ) (hf : ℕ → Vec) (ew₁ ew₂ : List ((ℕ × ℕ) × ℚ))
    (hwidth : ∀ p ∈ ew₁, (hf p.1.1).length = F)
    (hperm : ew₁.Perm ew₂) :
    neighborRepr F hf ew₁ v = neighborRepr F hf ew₂ v := by
  have hpm : (msgsAt hf ew₁ v).Perm (msgsAt hf ew₂ v) :=
    (hperm.filter _).map _
  have hw₂ : ∀ p ∈ ew₂, (hf p.1.1).length = F := fun p hp =>
    hwidth p (hperm.mem_iff.2 hp)
  have hlen := hpm.length_eq
  rcases Nat.eq_zero_or_pos (msgsAt hf ew₁ v).length with hz | hpos
  · rw [neighborRepr, neighborRepr, meanReduce, meanReduce, if_pos hz,
      if_pos (by omega)]
  · refine vecExt ?_ (fun i => ?_)
    · rw [neighborRepr, neighborRepr, meanReduce_length (msgsAt_widths hwidth),
        meanReduce_length (msgsAt_widths hw₂)]
    · rw [neighborRepr, neighborRepr,
        vget_meanReduce (msgsAt_widths hwidth) (by omega) i,
        vget_meanReduce (msgsAt_widths hw₂) (by omega) i,
        (hpm.map _).sum_eq, hlen]

/-- Witness for C7: swapping the two edges of the example graph leaves
node 2's `neighbor_repr` unchanged. -/
theorem neighborRepr_perm_invariant_witness :
    (∀ p ∈ weightedEdges exGraph exWs, (exHf p.1.1).length = 2) ∧
    neighborRepr 2 exHf (weightedEdges exGraph exWs) 2
      = neighborRepr 2 exHf ((weightedEdges exGraph exWs).reverse) 2 :=
  ⟨by decide,
    neighborRepr_perm_invariant 2 2 exHf _ _ (by decide)
      (List.reverse_perm _).symm⟩

/-- **C8.** For a destination node `v` with a fixed set of incoming edges,
replacing the weight of each incoming edge of `v` by `c` times that weight
multiplies `neighbor_repr[v]` elementwise by `c` (linearity of the
weighted mean in the weights). -/
theorem neighborRepr_weight_scaling
    (F v : ℕ) (c : ℚ) (hf : ℕ → Vec) (ew : List ((ℕ × ℕ) × ℚ))
    (hwidth : ∀ p ∈ ew, (hf p.1.1).length = F) :
    neighborRepr F hf (scaleWeightsAt c v ew) v
      = scaleVec c (neighborRepr F hf ew v) := by
  unfold neighborRepr
  rw [msgsAt_scaleWeightsAt]
  have hwid : ∀ m ∈ msgsAt hf ew v, m.length = F := msgsAt_widths hwidth
  rcases Nat.eq_zero_or_pos (msgsAt hf ew v).length with hz | hpos
  · have hnil : msgsAt hf ew v = [] := List.length_eq_zero.mp hz
    rw [hnil]
    show meanReduce F [] = scaleVec c (meanReduce F [])
    simp [meanReduce, scaleVec_zeroVec]
  · have hwid2 : ∀ m ∈ (msgsAt hf ew v).map (scaleVec c), m.length = F := by
      intro m hm
      obtain ⟨x, hx, rfl⟩ := List.mem_map.1 hm
      rw [scaleVec_length]
      exact hwid x hx
    refine vecExt ?_ (fun i => ?_)
    · rw [meanReduce_length hwid2, scaleVec_length, meanReduce_length hwid]
    · rw [vget_scaleVec, vget_meanReduce hwid2
          (by rw [List.length_map] ; omega) i,
        vget_meanReduce hwid (by omega) i, List.length_map, List.map_map]
      rw [show ((fun m => vget m i) ∘ scaleVec c) = fun x => c * vget x i from
        funext (fun x => vget_scaleVec c x i)]
      rw [List.sum_map_mul_left, mul_div_assoc]

/-- Witness for C8: tripling both incoming weights of node 2 in the
example triples its `neighbor_repr`. -/
theorem neighborRepr_weight_scaling_witness :
    (∀ p ∈ weightedEdges exGraph exWs, (exHf p.1.1).length = 2) ∧
    neighborRepr 2 exHf (scaleWeightsAt 3 2 (weightedEdges exGraph exWs)) 2
      = scaleVec 3 (neighborRepr 2 exHf (weightedEdges exGraph exWs) 2) :=
  ⟨by decide,
    neighborRepr_weight_scaling 2 2 3 exHf (weightedEdges exGraph exWs)
      (by decide)⟩

/-- **C10.** The user-defined message function `u_mul_e_udf` is equivalent
to the built-in `fn.u_mul_e('h', 'w', 'm')`: per edge both produce the
source's feature scaled elementwise by the edge weight, and substituting
one for the other leaves every node's aggregated representation
unchanged. -/
theorem u_mul_e_udf_equiv_builtin
    (F : ℕ) (hf : ℕ → Vec) (ew : List ((ℕ × ℕ) × ℚ)) :
    (∀ sh : Vec, ∀ w : ℚ, u_mul_e_udf sh w = u_mul_e sh w) ∧
    (∀ v : ℕ, neighborReprUDF F hf ew v = neighborRepr F hf ew v) := by
  have h1 : ∀ sh : Vec, ∀ w : ℚ, u_mul_e_udf sh w = u_mul_e sh w := by
    intro sh w
    unfold u_mul_e_udf u_mul_e scaleVec
    exact List.map_congr_left (fun x _ => mul_comm x w)
  refine ⟨h1, fun v => ?_⟩
  unfold neighborReprUDF neighborRepr msgsAt
  rw [List.map_congr_left (fun p _ => h1 (hf p.1.1) p.2)]

/-- **C2.** For every node `v`, the output of the forward computation is
`relu(W · concat(node_features[v], neighbor_repr[v]))`, `W` being the
module's learned linear map. -/
theorem forward_output_combination
    (F : ℕ) (lin : Linear) (gs : GraphState) (h : List Vec) (w : List ℚ)
    (v : ℕ) (hv : v < gs.graph.numNodes) (hlen : h.length = gs.graph.numNodes) :
    (forward F lin gs h w).getD v []
      = relu (lin.apply (h.getD v [] ++
          neighborRepr F (fun u => h.getD u []) (gs.graph.edges.zip w) v)) := by
  have hfwd : forward F lin gs h w
      = (List.zipWith (fun a b => a ++ b) h
          (gs.graph.nodes.map (fun x =>
            neighborRepr F (fun u => h.getD u []) (gs.graph.edges.zip w) x))).map
          (fun x => relu (lin.apply x)) := rfl
  rw [hfwd]
  have hmap : (gs.graph.nodes.map (fun x =>
      neighborRepr F (fun u => h.getD u []) (gs.graph.edges.zip w) x)).length
      = gs.graph.numNodes := by
    rw [List.length_map, Graph.nodes, List.length_range]
  have hzlen : (List.zipWith (fun a b : Vec => a ++ b) h
      (gs.graph.nodes.map (fun x =>
        neighborRepr F (fun u => h.getD u []) (gs.graph.edges.zip w) x))).length
      = gs.graph.numNodes := by
    rw [List.length_zipWith, hmap, hlen, Nat.min_self]
  rw [List.getD_eq_getElem _ _ (by rw [List.length_map, hzlen] ; exact hv),
    List.getElem_map, List.getElem_zipWith, List.getElem_map,
    List.getD_eq_getElem h _ (by rw [hlen] ; exact hv)]
  simp [Graph.nodes]

/-- Witness for C2: the output of the example forward call at node 2
equals the rectified linear combination of node 2's own feature and its
neighbor representation. -/
theorem forward_output_combination_witness :
    2 < exState.graph.numNodes ∧ exFeat.length = exState.graph.numNodes ∧
    (forward 2 exLin exState exFeat [1/2, 1/2]).getD 2 []
      = relu (exLin.apply (exFeat.getD 2 [] ++
          neighborRepr 2 (fun u => exFeat.getD u [])
            (exState.graph.edges.zip [1/2, 1/2]) 2)) :=
  ⟨by decide, by decide,
    forward_output_combination 2 exLin exState exFeat [1/2, 1/2] 2
      (by decide) (by decide)⟩

/-- **C3.** A forward call leaves all caller-owned state unchanged: the
graph object handed back to the caller is exactly the one passed in — same
structural graph, same node data, same edge data — so the temporary fields
attached inside the local scope are not visible after the call returns. -/
theorem forwardCall_preserves_caller_state
    (F : ℕ) (lin : Linear) (gs : GraphState) (h : List Vec) (w : List ℚ) :
    (forwardCall F lin gs h w).2 = gs ∧
    (forwardCall F lin gs h w).2.graph = gs.graph ∧
    (forwardCall F lin gs h w).2.ndata_h = gs.ndata_h ∧
    (forwardCall F lin gs h w).2.ndata_h_neigh = gs.ndata_h_neigh ∧
    (forwardCall F lin gs h w).2.edata_w = gs.edata_w :=
  ⟨rfl, rfl, rfl, rfl, rfl⟩

/-- **C9.** The forward computation is deterministic and has no hidden
state: its output is a pure function of the graph structure and the
explicit inputs, so two calls that agree on the graph and on
`node_features`, `edge_weights` and the learned projection produce
identical outputs regardless of any pre-existing data fields on the shared
graph object. -/
theorem forward_deterministic
    (F : ℕ) (lin : Linear) (h : List Vec) (w : List ℚ)
    (gs₁ gs₂ : GraphState) (hg : gs₁.graph = gs₂.graph) :
    forward F lin gs₁ h w = forward F lin gs₂ h w := by
  unfold forward forwardCall localScope setNDataH setEDataW updateAllMean
  simp only [hg]

/-- Witness for C9: a clean state and a state carrying stale `ndata` /
`edata` fields over the same graph yield the same forward output. -/
theorem forward_deterministic_witness :
    exState.graph = exStateDirty.graph ∧
    forward 2 exLin exState exFeat [1/2, 1/2]
      = forward 2 exLin exStateDirty exFeat [1/2, 1/2] :=
  ⟨rfl, forward_deterministic 2 exLin exFeat [1/2, 1/2] exState exStateDirty rfl⟩

/-- **C4.** When the width of `node_features` differs from the configured
input width of the layer, `aggregate` fails with `DimensionMismatch` and
returns nothing else. -/
theorem aggregate_dimension_mismatch
    (F Fp : ℕ) (lin : Linear) (g : Graph) (hf : ℕ → Vec)
    (ws : List ((ℕ × ℕ) × ℚ))
    (hn : 0 < g.numNodes)
    (hwidth : ∀ v, v < g.numNodes → (hf v).length = Fp)
    (hne : Fp ≠ F) :
    aggregate F lin g hf ws = .error .DimensionMismatch := by
  have hfail : ¬ (g.nodes.all (fun v => (hf v).length = F) = true) := by
    rw [List.all_eq_true]
    intro hall
    have h0 : (0 : ℕ) ∈ g.nodes := by
      rw [Graph.nodes, List.mem_range]
      exact hn
    have hF := of_decide_eq_true (hall 0 h0)
    exact hne ((hwidth 0 hn).symm.trans hF)
  unfold aggregate
  rw [if_pos hfail]

/-- Witness for C4: features of width 3 against a layer configured for
width 5 fail with `DimensionMismatch`, as in spec §8. -/
theorem aggregate_dimension_mismatch_witness :
    0 < exGraph.numNodes ∧ (∀ v, v < exGraph.numNodes → (exHf3 v).length = 3) ∧
    3 ≠ 5 ∧
    aggregate 5 exLin exGraph exHf3 exWs = .error .DimensionMismatch :=
  ⟨by decide, by decide, by decide,
    aggregate_dimension_mismatch 5 3 exLin exGraph exHf3 exWs
      (by decide) (by decide) (by decide)⟩

/-- **C5.** With well-dimensioned features: if some edge of the graph
lacks an entry in `edge_weights` the call fails with `UndefinedWeight`,
and under the precondition that every edge has a weight this error branch
is unreachable — the call returns a full result. -/
theorem aggregate_undefined_weight
    (F : ℕ) (lin : Linear) (g : Graph) (hf : ℕ → Vec)
    (ws : List ((ℕ × ℕ) × ℚ))
    (hwidth : ∀ v ∈ g.nodes, (hf v).length = F) :
    ((∃ e ∈ g.edges, lookupWeight ws e = none) →
        aggregate F lin g hf ws = .error .UndefinedWeight) ∧
    ((∀ e ∈ g.edges, (lookupWeight ws e).isSome = true) →
        ∃ out, aggregate F lin g hf ws = .ok out) := by
  have hdim : (g.nodes.all (fun v => (hf v).length = F)) = true := by
    rw [List.all_eq_true]
    intro v hv
    exact decide_eq_true (hwidth v hv)
  constructor
  · rintro ⟨e, he, hnone⟩
    have hwfail : ¬ (g.edges.all (fun e => (lookupWeight ws e).isSome) = true) := by
      rw [List.all_eq_true]
      intro hall
      have hsome := hall e he
      rw [hnone] at hsome
      exact Bool.false_ne_true hsome
    unfold aggregate
    rw [if_neg (not_not_intro hdim), if_pos hwfail]
  · intro hsome
    have hwok : (g.edges.all (fun e => (lookupWeight ws e).isSome)) = true := by
      rw [List.all_eq_true]
      exact hsome
    unfold aggregate
    rw [if_neg (not_not_intro hdim), if_neg (not_not_intro hwok)]
    exact ⟨_, rfl⟩

/-- Witness for C5: dropping the entry for edge (1,2) from the example
weights makes the call fail with `UndefinedWeight`, while the full weight
mapping yields a complete result. -/
theorem aggregate_undefined_weight_witness :
    (∀ v ∈ exGraph.nodes, (exHf v).length = 2) ∧
    (((∃ e ∈ exGraph.edges, lookupWeight exWsMissing e = none) →
        aggregate 2 exLin exGraph exHf exWsMissing = .error .UndefinedWeight) ∧
     ((∀ e ∈ exGraph.edges, (lookupWeight exWsMissing e).isSome = true) →
        ∃ out, aggregate 2 exLin exGraph exHf exWsMissing = .ok out)) :=
  ⟨by decide,
    aggregate_undefined_weight 2 exLin exGraph exHf exWsMissing (by decide)⟩
